import Mathlib

/-!
A shallow embedding of the MapReduce style matrix multiplication engine in
src/main.py, together with proofs of the specified properties.

Conventions of the embedding:
  * Python float values are modelled as exact rationals; the claims under
    study are stated over exact arithmetic.
  * The Python dict and defaultdict are modelled as insertion ordered
    association lists, matching the iteration order of Python dicts.
  * Python exceptions are modelled with Except: a raised ValueError at the
    dimension check becomes EngineError.dimensionMismatch carrying the very
    numbers interpolated into the Python message, and an IndexError raised
    by matrix_a[0] or matrix_b[0] on an empty list becomes
    EngineError.indexError.
  * Reads mat[i][j] are modelled by cell, total with default 0; every claim
    below constrains indices to the range where the Python read succeeds.
-/

namespace MapReduceMatMul

/-- Origin tag of a contribution record: which input matrix produced it
(the first component of the Python tuple value, the string A or B). -/
inductive Origin : Type where
  | A : Origin
  | B : Origin
deriving DecidableEq

/-- Numeric cell values: Python floats modelled as exact rationals. -/
abbrev Val : Type := ℚ

/-- A matrix is an ordered list of rows, each an ordered list of values. -/
abbrev Mat : Type := List (List Val)

/-- An output key (i, j) names one cell of the result matrix. -/
abbrev OutputKey : Type := Nat × Nat

/-- A tagged value (origin, sharedIndex, value), the Python tuple
(matrix_id, k, element_value). -/
abbrev TaggedValue : Type := Origin × Nat × Val

/-- The mapped_values defaultdict: an insertion ordered association list
from output keys to the list of tagged values appended under that key. -/
abbrev MappedValues : Type := List (OutputKey × List TaggedValue)

/-- Read mat[i][j], totalised with default 0 for out of range indices. -/
def cell (mat : Mat) (i j : Nat) : Val := (mat.getD i []).getD j 0

/-- Failures of the engine. dimensionMismatch carries m, n, len(matrix_b)
and p exactly as the Python ValueError message does; shapeError carries the
offending row lengths; indexError models the IndexError that an empty input
list raises at matrix_a[0] or matrix_b[0]. -/
inductive EngineError : Type where
  | dimensionMismatch (aRows aCols bRows bCols : Nat) : EngineError
  | shapeError (rowLengths : List Nat) : EngineError
  | indexError : EngineError
deriving DecidableEq

/-- The stream of contribution records emitted from matrix A: the loop nest
for i in range(m), k in range(n), j in range(p) emitting
((i, j), (A, k, a[i][k])), in emission order. -/
def contributions_A (a : Mat) (m n p : Nat) : List (OutputKey × TaggedValue) :=
  (List.range m).flatMap (fun i =>
    (List.range n).flatMap (fun k =>
      (List.range p).map (fun j => ((i, j), (Origin.A, k, cell a i k)))))

/-- The stream of contribution records emitted from matrix B: the loop nest
for k in range(n), j in range(p), i in range(m) emitting
((i, j), (B, k, b[k][j])), in emission order. -/
def contributions_B (b : Mat) (m n p : Nat) : List (OutputKey × TaggedValue) :=
  (List.range n).flatMap (fun k =>
    (List.range p).flatMap (fun j =>
      (List.range m).map (fun i => ((i, j), (Origin.B, k, cell b k j)))))

/-- The full record stream of map_phase: the A loop nest runs first, then
the B loop nest. -/
def contributions (a b : Mat) (m n p : Nat) : List (OutputKey × TaggedValue) :=
  contributions_A a m n p ++ contributions_B b m n p

/-- mapped_values[key].append(value) on a defaultdict(list): if the key is
present its list grows at the end, otherwise a new singleton entry is added
at the end (Python dicts keep insertion order of keys). -/
def appendAt (d : MappedValues) (k : OutputKey) (v : TaggedValue) : MappedValues :=
  match d with
  | [] => [(k, [v])]
  | (k2, vs) :: rest =>
    if k2 = k then (k2, vs ++ [v]) :: rest else (k2, vs) :: appendAt rest k v

/-- Grouping of the record stream into the mapped_values defaultdict, one
append per emitted record, in emission order. -/
def group_records (rs : List (OutputKey × TaggedValue)) : MappedValues :=
  rs.foldl (fun d r => appendAt d r.1 r.2) []

/-- map_phase(matrix_a, matrix_b): reads m = len(matrix_a),
n = len(matrix_a[0]), p = len(matrix_b[0]) (IndexError on an empty list),
checks len(matrix_b) == n (ValueError naming both shapes otherwise), then
runs the two emission loop nests into the defaultdict and returns
(mapped_values, (m, p)). -/
def map_phase (a b : Mat) : Except EngineError (MappedValues × Nat × Nat) :=
  match a.head? with
  | none => .error .indexError
  | some row0 =>
    let m := a.length
    let n := row0.length
    match b.head? with
    | none => .error .indexError
    | some brow0 =>
      let p := brow0.length
      if b.length ≠ n then
        .error (.dimensionMismatch m n b.length p)
      else
        .ok (group_records (contributions a b m n p), (m, p))

/-- Association list lookup with decidable key equality, first match wins;
models d[k] and the test k in d on a Python dict. -/
def lookupAL {κ : Type} [DecidableEq κ] {β : Type} : List (κ × β) → κ → Option β
  | [], _ => none
  | (k2, v) :: rest, k => if k2 = k then some v else lookupAL rest k

/-- d[k] = v on a Python dict: an existing key keeps its position and gets
the new value (last write wins), a new key is appended at the end. -/
def dinsert (d : List (Nat × Val)) (k : Nat) (v : Val) : List (Nat × Val) :=
  match d with
  | [] => [(k, v)]
  | (k2, v2) :: rest =>
    if k2 = k then (k2, v) :: rest else (k2, v2) :: dinsert rest k v

/-- The dict comprehension building a_values (origin A) or b_values
(origin B) from the value list of one group: iterate the list in order and
write k -> val for each record of the requested origin. -/
def build_dict (o : Origin) (values : List TaggedValue) : List (Nat × Val) :=
  values.foldl (fun d tv => if tv.1 = o then dinsert d tv.2.1 tv.2.2 else d) []

/-- The dot product loop of reduce_phase: for k in a_values.keys(), if k in
b_values, accumulate a_values[k] * b_values[k] starting from 0.0. The dict
a_values has pairwise distinct keys, so iterating its entries and using the
stored value is the same as indexing a_values[k]. -/
def dot_product (av bv : List (Nat × Val)) : Val :=
  av.foldl (fun acc kv =>
    match lookupAL bv kv.1 with
    | some bval => acc + kv.2 * bval
    | none => acc) 0

/-- The body of the reduce loop for the value list of one key: build the
two dicts and run the dot product loop. -/
def reduce_cell (values : List TaggedValue) : Val :=
  dot_product (build_dict Origin.A values) (build_dict Origin.B values)

/-- result_matrix = [[0.0 for _ in range(p)] for _ in range(m)]. -/
def zeroMatrix (m p : Nat) : Mat :=
  List.replicate m (List.replicate p (0 : Val))

/-- result_matrix[i][j] = v, totalised: out of range indices leave the
matrix unchanged (every claim below keeps the indices in range, where the
Python assignment succeeds). -/
def setCell (mat : Mat) (i j : Nat) (v : Val) : Mat :=
  match mat.get? i with
  | some row => mat.set i (row.set j v)
  | none => mat

/-- The Python tuple order on keys used by sorted(mapped_values.items());
key tuples are compared lexicographically and keys are pairwise distinct,
so the value lists never take part in the comparison. -/
def keyLe (k1 k2 : OutputKey) : Bool :=
  k1.1 < k2.1 || (k1.1 == k2.1 && k1.2 ≤ k2.2)

/-- Insertion step of the sort underlying sorted(mapped_values.items()). -/
def insertSorted (x : OutputKey × List TaggedValue) :
    MappedValues → MappedValues
  | [] => [x]
  | y :: ys => if keyLe x.1 y.1 then x :: y :: ys else y :: insertSorted x ys

/-- sorted(mapped_values.items()), as an insertion sort on the key order. -/
def sortItems (l : MappedValues) : MappedValues := l.foldr insertSorted []

/-- reduce_phase(mapped_values, dimensions): start from the m times p zero
matrix and, for each (key, values) item of the sorted dict, write the dot
product of the two per origin dicts into cell key. -/
def reduce_phase (mapped : MappedValues) (dims : Nat × Nat) : Mat :=
  (sortItems mapped).foldl
    (fun mat kv => setCell mat kv.1.1 kv.1.2 (reduce_cell kv.2))
    (zeroMatrix dims.1 dims.2)

/-- Modelled from the spec: the Matrix constructor of spec section 4.1 is
not implemented under src (the script feeds raw row lists produced by file
reading, which the spec rules out of scope, straight into map_phase).
Following the words of the contract: construct from a non empty ordered
sequence of equal length rows; fail with ShapeError if the sequence is
empty or the rows differ in length. -/
def mkMatrix (rows : Mat) : Except EngineError Mat :=
  match rows with
  | [] => .error (.shapeError [])
  | r0 :: _ =>
    if rows.all (fun r => r.length == r0.length) then .ok rows
    else .error (.shapeError (rows.map List.length))

/-- The engine pipeline of main(): validate both inputs (validation
modelled from the spec, see mkMatrix), then map_phase, then reduce_phase;
any raised error aborts the run with no result matrix, as the except block
of main() does. -/
def engine_run (rowsA rowsB : Mat) : Except EngineError Mat := do
  let a ← mkMatrix rowsA
  let b ← mkMatrix rowsB
  let mr ← map_phase a b
  pure (reduce_phase mr.1 mr.2)

/-! Observers used by the proofs. -/

/-- The sublist of tagged values of the records of rs keyed k, in order. -/
def valuesOf (rs : List (OutputKey × TaggedValue)) (k : OutputKey) :
    List TaggedValue :=
  rs.filterMap (fun r => if r.1 = k then some r.2 else none)

/-- The keys of an association list, in order. -/
def keysOf {κ : Type} {β : Type} (l : List (κ × β)) : List κ :=
  l.map Prod.fst

/-! Lemmas about association list lookup. -/

theorem lookupAL_nil {κ : Type} [DecidableEq κ] {β : Type} (k : κ) :
    lookupAL ([] : List (κ × β)) k = none := rfl

theorem lookupAL_cons {κ : Type} [DecidableEq κ] {β : Type}
    (k2 : κ) (v : β) (rest : List (κ × β)) (k : κ) :
    lookupAL ((k2, v) :: rest) k =
      if k2 = k then some v else lookupAL rest k := rfl

theorem lookupAL_append {κ : Type} [DecidableEq κ] {β : Type}
    (l1 l2 : List (κ × β)) (k : κ) :
    lookupAL (l1 ++ l2) k =
      match lookupAL l1 k with
      | some v => some v
      | none => lookupAL l2 k := by
  induction l1 with
  | nil => simp [lookupAL]
  | cons hd tl ih =>
    obtain ⟨k2, v⟩ := hd
    by_cases h : k2 = k <;> simp [lookupAL, h, ih]

theorem keysOf_nil {κ : Type} {β : Type} : keysOf ([] : List (κ × β)) = [] :=
  rfl

theorem keysOf_cons {κ : Type} {β : Type} (k : κ) (v : β)
    (l : List (κ × β)) : keysOf ((k, v) :: l) = k :: keysOf l := rfl

theorem keysOf_append {κ : Type} {β : Type} (l1 l2 : List (κ × β)) :
    keysOf (l1 ++ l2) = keysOf l1 ++ keysOf l2 := by
  simp [keysOf]

theorem mem_keysOf_iff {κ : Type} {β : Type} (l : List (κ × β)) (k : κ) :
    k ∈ keysOf l ↔ ∃ v, (k, v) ∈ l := by
  induction l with
  | nil => simp [keysOf]
  | cons hd tl ih =>
    obtain ⟨k2, v2⟩ := hd
    rw [keysOf_cons]
    simp only [List.mem_cons]
    constructor
    · rintro (rfl | hmem)
      · exact ⟨v2, Or.inl rfl⟩
      · obtain ⟨v, hv⟩ := ih.mp hmem
        exact ⟨v, Or.inr hv⟩
    · rintro ⟨v, hv | hv⟩
      · cases hv
        exact Or.inl rfl
      · exact Or.inr (ih.mpr ⟨v, hv⟩)

theorem lookupAL_eq_none_iff {κ : Type} [DecidableEq κ] {β : Type}
    (l : List (κ × β)) (k : κ) :
    lookupAL l k = none ↔ k ∉ keysOf l := by
  induction l with
  | nil => simp [lookupAL, keysOf]
  | cons hd tl ih =>
    obtain ⟨k2, v⟩ := hd
    rw [lookupAL_cons, keysOf_cons]
    by_cases h : k2 = k
    · subst h
      simp
    · have h2 : ¬ k = k2 := fun hh => h hh.symm
      simp [h, h2, List.mem_cons, ih]

theorem mem_of_lookupAL_eq_some {κ : Type} [DecidableEq κ] {β : Type}
    {l : List (κ × β)} {k : κ} {v : β} (h : lookupAL l k = some v) :
    (k, v) ∈ l := by
  induction l with
  | nil => simp [lookupAL] at h
  | cons hd tl ih =>
    obtain ⟨k2, v2⟩ := hd
    by_cases hk : k2 = k
    · subst hk
      rw [lookupAL_cons, if_pos rfl] at h
      cases h
      exact List.mem_cons_self _ _
    · rw [lookupAL_cons, if_neg hk] at h
      exact List.mem_cons_of_mem _ (ih h)

theorem lookupAL_eq_some_of_mem {κ : Type} [DecidableEq κ] {β : Type}
    {l : List (κ × β)} {k : κ} {v : β}
    (hnd : (keysOf l).Nodup) (h : (k, v) ∈ l) :
    lookupAL l k = some v := by
  induction l with
  | nil => simp at h
  | cons hd tl ih =>
    obtain ⟨k2, v2⟩ := hd
    rw [keysOf_cons, List.nodup_cons] at hnd
    rcases List.mem_cons.mp h with h1 | h1
    · cases h1
      rw [lookupAL_cons, if_pos rfl]
    · have hk : k2 ≠ k := by
        rintro rfl
        exact hnd.1 ((mem_keysOf_iff tl k2).mpr ⟨v, h1⟩)
      rw [lookupAL_cons, if_neg hk]
      exact ih hnd.2 h1

theorem lookupAL_eq_of_perm {κ : Type} [DecidableEq κ] {β : Type}
    {l1 l2 : List (κ × β)} (hnd : (keysOf l1).Nodup) (hp : l1.Perm l2)
    (k : κ) : lookupAL l1 k = lookupAL l2 k := by
  cases hcase : lookupAL l1 k with
  | none =>
    have h2 : k ∉ keysOf l2 := by
      intro hmem
      have : k ∈ keysOf l1 := (hp.map Prod.fst).symm.mem_iff.mp hmem
      exact ((lookupAL_eq_none_iff l1 k).mp hcase) this
    exact ((lookupAL_eq_none_iff l2 k).mpr h2).symm
  | some v =>
    have hmem : (k, v) ∈ l2 := hp.mem_iff.mp (mem_of_lookupAL_eq_some hcase)
    have hnd2 : (keysOf l2).Nodup := (hp.map Prod.fst).nodup_iff.mp hnd
    exact (lookupAL_eq_some_of_mem hnd2 hmem).symm

/-! Lemmas about valuesOf. -/

theorem valuesOf_nil (k : OutputKey) : valuesOf [] k = [] := rfl

theorem valuesOf_append (rs ss : List (OutputKey × TaggedValue))
    (k : OutputKey) :
    valuesOf (rs ++ ss) k = valuesOf rs k ++ valuesOf ss k := by
  simp [valuesOf, List.filterMap_append]

theorem valuesOf_cons (r : OutputKey × TaggedValue)
    (rs : List (OutputKey × TaggedValue)) (k : OutputKey) :
    valuesOf (r :: rs) k =
      if r.1 = k then r.2 :: valuesOf rs k else valuesOf rs k := by
  by_cases h : r.1 = k <;> simp [valuesOf, List.filterMap_cons, h]

theorem valuesOf_ne_nil_iff (rs : List (OutputKey × TaggedValue))
    (k : OutputKey) : valuesOf rs k ≠ [] ↔ k ∈ keysOf rs := by
  induction rs with
  | nil => simp [valuesOf, keysOf]
  | cons hd tl ih =>
    obtain ⟨k2, v⟩ := hd
    rw [valuesOf_cons, keysOf_cons]
    by_cases h : k2 = k
    · subst h
      simp
    · have h2 : ¬ k = k2 := fun hh => h hh.symm
      simp [h, h2, List.mem_cons, ih]

/-! Lemmas about appendAt and group_records. -/

theorem lookupAL_appendAt_self (d : MappedValues) (k : OutputKey)
    (v : TaggedValue) :
    lookupAL (appendAt d k v) k = some ((lookupAL d k).getD [] ++ [v]) := by
  induction d with
  | nil => simp [appendAt, lookupAL]
  | cons hd tl ih =>
    obtain ⟨k2, vs⟩ := hd
    by_cases h : k2 = k <;> simp [appendAt, lookupAL, h, ih]

theorem lookupAL_appendAt_ne (d : MappedValues) (k k2 : OutputKey)
    (v : TaggedValue) (h : k2 ≠ k) :
    lookupAL (appendAt d k v) k2 = lookupAL d k2 := by
  induction d with
  | nil =>
    have h2 : ¬ k = k2 := fun hh => h hh.symm
    simp [appendAt, lookupAL, h2]
  | cons hd tl ih =>
    obtain ⟨k3, vs⟩ := hd
    by_cases h3 : k3 = k
    · subst h3
      have h4 : ¬ k3 = k2 := fun hh => h hh.symm
      simp [appendAt, lookupAL_cons, h4]
    · simp [appendAt, h3, lookupAL_cons, ih]

theorem mem_keysOf_appendAt (d : MappedValues) (k k2 : OutputKey)
    (v : TaggedValue) :
    k2 ∈ keysOf (appendAt d k v) ↔ k2 = k ∨ k2 ∈ keysOf d := by
  induction d with
  | nil => simp [appendAt, keysOf]
  | cons hd tl ih =>
    obtain ⟨k3, vs⟩ := hd
    by_cases h : k3 = k
    · subst h
      simp [appendAt, keysOf_cons, List.mem_cons]
    · have heq : appendAt ((k3, vs) :: tl) k v = (k3, vs) :: appendAt tl k v := by
        simp [appendAt, h]
      rw [heq]
      simp only [keysOf_cons, List.mem_cons, ih]
      tauto

theorem nodup_keysOf_appendAt (d : MappedValues) (k : OutputKey)
    (v : TaggedValue) (hnd : (keysOf d).Nodup) :
    (keysOf (appendAt d k v)).Nodup := by
  induction d with
  | nil => simp [appendAt, keysOf]
  | cons hd tl ih =>
    obtain ⟨k3, vs⟩ := hd
    rw [keysOf_cons, List.nodup_cons] at hnd
    by_cases h : k3 = k
    · subst h
      have heq : appendAt ((k3, vs) :: tl) k3 v = (k3, vs ++ [v]) :: tl := by
        simp [appendAt]
      rw [heq, keysOf_cons, List.nodup_cons]
      exact ⟨hnd.1, hnd.2⟩
    · have ihh := ih hnd.2
      have heq : appendAt ((k3, vs) :: tl) k v = (k3, vs) :: appendAt tl k v := by
        simp [appendAt, h]
      rw [heq, keysOf_cons, List.nodup_cons]
      refine ⟨fun hmem => ?_, ihh⟩
      rcases (mem_keysOf_appendAt tl k k3 v).mp hmem with h4 | h4
      · exact h h4
      · exact hnd.1 h4

theorem lookupAL_foldl_appendAt (rs : List (OutputKey × TaggedValue)) :
    ∀ (d : MappedValues) (k : OutputKey),
    lookupAL (rs.foldl (fun d r => appendAt d r.1 r.2) d) k =
      match lookupAL d k with
      | some u => some (u ++ valuesOf rs k)
      | none =>
        if valuesOf rs k = [] then none else some (valuesOf rs k) := by
  induction rs with
  | nil =>
    intro d k
    rw [List.foldl_nil, valuesOf_nil]
    cases lookupAL d k <;> simp
  | cons r rs ih =>
    intro d k
    rw [List.foldl_cons, ih, valuesOf_cons]
    by_cases h : r.1 = k
    · rw [if_pos h, h, lookupAL_appendAt_self]
      cases lookupAL d k <;> simp
    · rw [if_neg h, lookupAL_appendAt_ne d r.1 k r.2 (fun hh => h hh.symm)]

theorem lookupAL_group_records (rs : List (OutputKey × TaggedValue))
    (k : OutputKey) :
    lookupAL (group_records rs) k =
      if valuesOf rs k = [] then none else some (valuesOf rs k) := by
  have h := lookupAL_foldl_appendAt rs [] k
  rw [group_records]
  rw [h]
  rfl

theorem mem_keysOf_foldl_appendAt (rs : List (OutputKey × TaggedValue)) :
    ∀ (d : MappedValues) (k : OutputKey),
    k ∈ keysOf (rs.foldl (fun d r => appendAt d r.1 r.2) d) ↔
      k ∈ keysOf d ∨ k ∈ keysOf rs := by
  induction rs with
  | nil => intro d k; simp [keysOf]
  | cons r rs ih =>
    intro d k
    obtain ⟨kr, vr⟩ := r
    rw [List.foldl_cons, keysOf_cons, List.mem_cons]
    rw [show ((kr, vr) : OutputKey × TaggedValue).1 = kr from rfl]
    rw [show ((kr, vr) : OutputKey × TaggedValue).2 = vr from rfl]
    rw [ih, mem_keysOf_appendAt]
    tauto

theorem mem_keysOf_group_records (rs : List (OutputKey × TaggedValue))
    (k : OutputKey) :
    k ∈ keysOf (group_records rs) ↔ k ∈ keysOf rs := by
  rw [group_records, mem_keysOf_foldl_appendAt]
  simp [keysOf_nil]

theorem nodup_keysOf_foldl_appendAt (rs : List (OutputKey × TaggedValue)) :
    ∀ (d : MappedValues), (keysOf d).Nodup →
    (keysOf (rs.foldl (fun d r => appendAt d r.1 r.2) d)).Nodup := by
  induction rs with
  | nil => intro d hd; simpa using hd
  | cons r rs ih =>
    intro d hd
    rw [List.foldl_cons]
    exact ih _ (nodup_keysOf_appendAt d r.1 r.2 hd)

theorem nodup_keysOf_group_records (rs : List (OutputKey × TaggedValue)) :
    (keysOf (group_records rs)).Nodup := by
  rw [group_records]
  exact nodup_keysOf_foldl_appendAt rs [] (by simp [keysOf])

/-! Characterisation of the emitted record streams, one loop level at a
time. -/

theorem valuesOf_singleton (k0 k : OutputKey) (v : TaggedValue) :
    valuesOf [(k0, v)] k = if k0 = k then [v] else [] := by
  rw [valuesOf_cons, valuesOf_nil]

theorem valuesOf_inner_A (i : Nat) (v : TaggedValue) (p i0 j0 : Nat) :
    valuesOf ((List.range p).map (fun j => ((i, j), v))) (i0, j0) =
      if i = i0 ∧ j0 < p then [v] else [] := by
  induction p with
  | zero => simp [valuesOf]
  | succ p ih =>
    rw [List.range_succ, List.map_append, valuesOf_append, ih]
    have hsing : valuesOf ([((i, p), v)]) (i0, j0) =
        if (i, p) = ((i0, j0) : OutputKey) then [v] else [] :=
      valuesOf_singleton _ _ _
    rw [List.map_cons, List.map_nil, hsing]
    by_cases h1 : i = i0
    · subst h1
      by_cases h2 : j0 < p
      · have h3 : ¬ p = j0 := by omega
        have h4 : j0 < p + 1 := by omega
        simp [h2, h3, h4, Prod.mk.injEq]
      · by_cases h3 : j0 = p
        · subst h3
          simp [h2, Prod.mk.injEq]
        · have h4 : ¬ j0 < p + 1 := by omega
          have h5 : ¬ p = j0 := fun hh => h3 hh.symm
          simp [h2, h3, h4, h5, Prod.mk.injEq]
    · simp [h1, Prod.mk.injEq]

theorem valuesOf_inner_B (j : Nat) (v : TaggedValue) (m i0 j0 : Nat) :
    valuesOf ((List.range m).map (fun i => ((i, j), v))) (i0, j0) =
      if j = j0 ∧ i0 < m then [v] else [] := by
  induction m with
  | zero => simp [valuesOf]
  | succ m ih =>
    rw [List.range_succ, List.map_append, valuesOf_append, ih]
    have hsing : valuesOf ([((m, j), v)]) (i0, j0) =
        if (m, j) = ((i0, j0) : OutputKey) then [v] else [] :=
      valuesOf_singleton _ _ _
    rw [List.map_cons, List.map_nil, hsing]
    by_cases h1 : j = j0
    · subst h1
      by_cases h2 : i0 < m
      · have h3 : ¬ m = i0 := by omega
        have h4 : i0 < m + 1 := by omega
        simp [h2, h3, h4, Prod.mk.injEq]
      · by_cases h3 : i0 = m
        · subst h3
          simp [h2, Prod.mk.injEq]
        · have h4 : ¬ i0 < m + 1 := by omega
          have h5 : ¬ m = i0 := fun hh => h3 hh.symm
          simp [h2, h3, h4, h5, Prod.mk.injEq]
    · simp [h1, Prod.mk.injEq]

theorem valuesOf_mid_A (i : Nat) (g : Nat → TaggedValue) (n p i0 j0 : Nat) :
    valuesOf ((List.range n).flatMap
        (fun k => (List.range p).map (fun j => ((i, j), g k)))) (i0, j0) =
      if i = i0 ∧ j0 < p then (List.range n).map g else [] := by
  induction n with
  | zero =>
    rw [List.range_zero]
    simp [valuesOf]
  | succ n ih =>
    rw [List.range_succ, List.flatMap_append, valuesOf_append, ih,
      List.flatMap_cons, List.flatMap_nil, List.append_nil,
      valuesOf_inner_A i (g n) p i0 j0]
    by_cases h : i = i0 ∧ j0 < p
    · rw [if_pos h, if_pos h, if_pos h]
      simp
    · rw [if_neg h, if_neg h, if_neg h, List.append_nil]

theorem valuesOf_contributions_A (a : Mat) (m n p i0 j0 : Nat) :
    valuesOf (contributions_A a m n p) (i0, j0) =
      if i0 < m ∧ j0 < p then
        (List.range n).map (fun k => ((Origin.A, k, cell a i0 k) : TaggedValue))
      else [] := by
  induction m with
  | zero =>
    rw [contributions_A, List.range_zero]
    simp [valuesOf]
  | succ m ih =>
    rw [contributions_A, List.range_succ, List.flatMap_append,
      valuesOf_append]
    have e : (List.range m).flatMap (fun i =>
        (List.range n).flatMap (fun k =>
          (List.range p).map (fun j => ((i, j), (Origin.A, k, cell a i k))))) =
        contributions_A a m n p := rfl
    rw [e, ih, List.flatMap_cons, List.flatMap_nil, List.append_nil,
      valuesOf_mid_A m (fun k => (Origin.A, k, cell a m k)) n p i0 j0]
    by_cases hj : j0 < p
    · by_cases h1 : i0 < m
      · have h2 : ¬ m = i0 := by omega
        have h3 : i0 < m + 1 := by omega
        simp [h1, h2, h3, hj]
      · by_cases h2 : m = i0
        · subst h2
          simp [h1, hj]
        · have h3 : ¬ i0 < m + 1 := by omega
          simp [h1, h2, h3, hj]
    · simp [hj]

theorem valuesOf_mid_B (b : Mat) (k : Nat) (m p i0 j0 : Nat) :
    valuesOf ((List.range p).flatMap
        (fun j => (List.range m).map
          (fun i => ((i, j), ((Origin.B, k, cell b k j) : TaggedValue)))))
      (i0, j0) =
      if i0 < m ∧ j0 < p then [(Origin.B, k, cell b k j0)] else [] := by
  induction p with
  | zero =>
    rw [List.range_zero]
    simp [valuesOf]
  | succ p ih =>
    rw [List.range_succ, List.flatMap_append, valuesOf_append, ih,
      List.flatMap_cons, List.flatMap_nil, List.append_nil,
      valuesOf_inner_B p ((Origin.B, k, cell b k p) : TaggedValue) m i0 j0]
    by_cases hi : i0 < m
    · by_cases h1 : j0 < p
      · have h2 : ¬ p = j0 := by omega
        have h3 : j0 < p + 1 := by omega
        simp [h1, h2, h3, hi]
      · by_cases h2 : j0 = p
        · subst h2
          simp [h1, hi]
        · have h3 : ¬ j0 < p + 1 := by omega
          have h5 : ¬ p = j0 := fun hh => h2 hh.symm
          simp [h1, h2, h3, h5, hi]
    · simp [hi]

theorem valuesOf_contributions_B (b : Mat) (m n p i0 j0 : Nat) :
    valuesOf (contributions_B b m n p) (i0, j0) =
      if i0 < m ∧ j0 < p then
        (List.range n).map (fun k => ((Origin.B, k, cell b k j0) : TaggedValue))
      else [] := by
  induction n with
  | zero =>
    rw [contributions_B, List.range_zero]
    simp [valuesOf]
  | succ n ih =>
    rw [contributions_B, List.range_succ, List.flatMap_append,
      valuesOf_append]
    have e : (List.range n).flatMap (fun k =>
        (List.range p).flatMap (fun j =>
          (List.range m).map (fun i => ((i, j), (Origin.B, k, cell b k j))))) =
        contributions_B b m n p := rfl
    rw [e, ih, List.flatMap_cons, List.flatMap_nil, List.append_nil,
      valuesOf_mid_B b n m p i0 j0]
    by_cases h : i0 < m ∧ j0 < p
    · rw [if_pos h, if_pos h, if_pos h]
      simp
    · rw [if_neg h, if_neg h, if_neg h, List.append_nil]

/-- The canonical value list of the group for an in range key (i, j): for
matrices A (m by n) and B (n by p), group (i, j) holds the n origin A
records in order of k, then the n origin B records in order of k. -/
def canonicalGroup (a b : Mat) (n : Nat) (i j : Nat) : List TaggedValue :=
  ((List.range n).map fun k => ((Origin.A, k, cell a i k) : TaggedValue)) ++
    ((List.range n).map fun k => ((Origin.B, k, cell b k j) : TaggedValue))

theorem valuesOf_contributions (a b : Mat) (m n p i0 j0 : Nat) :
    valuesOf (contributions a b m n p) (i0, j0) =
      if i0 < m ∧ j0 < p then canonicalGroup a b n i0 j0 else [] := by
  rw [contributions, valuesOf_append, valuesOf_contributions_A,
    valuesOf_contributions_B]
  by_cases h : i0 < m ∧ j0 < p
  · rw [if_pos h, if_pos h, if_pos h, canonicalGroup]
  · rw [if_neg h, if_neg h, if_neg h, List.append_nil]

/-! Record counting. -/

theorem length_flatMap_const {α β : Type} (l : List α) (f : α → List β)
    (c : Nat) (h : ∀ x ∈ l, (f x).length = c) :
    (l.flatMap f).length = l.length * c := by
  induction l with
  | nil => simp
  | cons hd tl ih =>
    rw [List.flatMap_cons, List.length_append, h hd (by simp),
      ih (fun x hx => h x (by simp [hx])), List.length_cons]
    ring

theorem length_contributions_A (a : Mat) (m n p : Nat) :
    (contributions_A a m n p).length = m * (n * p) := by
  rw [contributions_A, length_flatMap_const _ _ (n * p) (fun i hi => by
    rw [length_flatMap_const _ _ p (fun k hk => by simp)]
    simp)]
  simp

theorem length_contributions_B (b : Mat) (m n p : Nat) :
    (contributions_B b m n p).length = n * (p * m) := by
  rw [contributions_B, length_flatMap_const _ _ (p * m) (fun k hk => by
    rw [length_flatMap_const _ _ m (fun j hj => by simp)]
    simp)]
  simp

theorem length_contributions (a b : Mat) (m n p : Nat) :
    (contributions a b m n p).length = 2 * m * n * p := by
  rw [contributions, List.length_append, length_contributions_A,
    length_contributions_B]
  ring

theorem length_canonicalGroup (a b : Mat) (n i j : Nat) :
    (canonicalGroup a b n i j).length = 2 * n := by
  rw [canonicalGroup, List.length_append]
  simp
  ring

theorem mem_keysOf_contributions (a b : Mat) (m n p i j : Nat)
    (hn : 1 ≤ n) :
    (i, j) ∈ keysOf (contributions a b m n p) ↔ i < m ∧ j < p := by
  rw [← valuesOf_ne_nil_iff, valuesOf_contributions]
  by_cases h : i < m ∧ j < p
  · rw [if_pos h]
    have hlen : (canonicalGroup a b n i j).length = 2 * n :=
      length_canonicalGroup a b n i j
    constructor
    · intro _; exact h
    · intro _ hnil
      rw [hnil] at hlen
      simp at hlen
      omega
  · rw [if_neg h]
    simp [h]

/-! Lemmas about the per group dicts. -/

theorem lookupAL_dinsert_self (d : List (Nat × Val)) (k : Nat) (v : Val) :
    lookupAL (dinsert d k v) k = some v := by
  induction d with
  | nil => simp [dinsert, lookupAL]
  | cons hd tl ih =>
    obtain ⟨k2, v2⟩ := hd
    by_cases h : k2 = k
    · subst h
      simp [dinsert, lookupAL]
    · simp [dinsert, h, lookupAL_cons, ih]

theorem lookupAL_dinsert_ne (d : List (Nat × Val)) (k k2 : Nat) (v : Val)
    (h : k2 ≠ k) : lookupAL (dinsert d k v) k2 = lookupAL d k2 := by
  induction d with
  | nil =>
    have h2 : ¬ k = k2 := fun hh => h hh.symm
    simp [dinsert, lookupAL, h2]
  | cons hd tl ih =>
    obtain ⟨k3, v3⟩ := hd
    by_cases h3 : k3 = k
    · subst h3
      have h4 : ¬ k3 = k2 := fun hh => h hh.symm
      simp [dinsert, lookupAL_cons, h4]
    · simp [dinsert, h3, lookupAL_cons, ih]

theorem mem_keysOf_dinsert (d : List (Nat × Val)) (k k2 : Nat) (v : Val) :
    k2 ∈ keysOf (dinsert d k v) ↔ k2 = k ∨ k2 ∈ keysOf d := by
  induction d with
  | nil => simp [dinsert, keysOf]
  | cons hd tl ih =>
    obtain ⟨k3, v3⟩ := hd
    by_cases h : k3 = k
    · subst h
      simp [dinsert, keysOf_cons, List.mem_cons]
    · have heq : dinsert ((k3, v3) :: tl) k v = (k3, v3) :: dinsert tl k v := by
        simp [dinsert, h]
      rw [heq]
      simp only [keysOf_cons, List.mem_cons, ih]
      tauto

theorem nodup_keysOf_dinsert (d : List (Nat × Val)) (k : Nat) (v : Val)
    (hnd : (keysOf d).Nodup) : (keysOf (dinsert d k v)).Nodup := by
  induction d with
  | nil => simp [dinsert, keysOf]
  | cons hd tl ih =>
    obtain ⟨k3, v3⟩ := hd
    rw [keysOf_cons, List.nodup_cons] at hnd
    by_cases h : k3 = k
    · subst h
      have heq : dinsert ((k3, v3) :: tl) k3 v = (k3, v) :: tl := by
        simp [dinsert]
      rw [heq, keysOf_cons, List.nodup_cons]
      exact ⟨hnd.1, hnd.2⟩
    · have heq : dinsert ((k3, v3) :: tl) k v = (k3, v3) :: dinsert tl k v := by
        simp [dinsert, h]
      rw [heq, keysOf_cons, List.nodup_cons]
      refine ⟨fun hmem => ?_, ih hnd.2⟩
      rcases (mem_keysOf_dinsert tl k k3 v).mp hmem with h4 | h4
      · exact h h4
      · exact hnd.1 h4

theorem dinsert_fresh (d : List (Nat × Val)) (k : Nat) (v : Val)
    (h : k ∉ keysOf d) : dinsert d k v = d ++ [(k, v)] := by
  induction d with
  | nil => simp [dinsert]
  | cons hd tl ih =>
    obtain ⟨k2, v2⟩ := hd
    rw [keysOf_cons, List.mem_cons] at h
    push_neg at h
    have h1 : ¬ k2 = k := fun hh => h.1 hh.symm
    have heq : dinsert ((k2, v2) :: tl) k v = (k2, v2) :: dinsert tl k v := by
      simp [dinsert, h1]
    rw [heq, ih h.2, List.cons_append]

theorem nodup_keysOf_build_dict_aux (o : Origin) (vs : List TaggedValue) :
    ∀ (d : List (Nat × Val)), (keysOf d).Nodup →
    (keysOf (vs.foldl
      (fun d tv => if tv.1 = o then dinsert d tv.2.1 tv.2.2 else d) d)).Nodup := by
  induction vs with
  | nil => intro d hd; simpa using hd
  | cons tv rest ih =>
    intro d hd
    rw [List.foldl_cons]
    by_cases h : tv.1 = o
    · rw [if_pos h]
      exact ih _ (nodup_keysOf_dinsert d tv.2.1 tv.2.2 hd)
    · rw [if_neg h]
      exact ih d hd

theorem nodup_keysOf_build_dict (o : Origin) (vs : List TaggedValue) :
    (keysOf (build_dict o vs)).Nodup := by
  rw [build_dict]
  exact nodup_keysOf_build_dict_aux o vs [] (by simp [keysOf])

theorem build_dict_append (o : Origin) (vs ws : List TaggedValue) :
    build_dict o (vs ++ ws) =
      ws.foldl (fun d tv => if tv.1 = o then dinsert d tv.2.1 tv.2.2 else d)
        (build_dict o vs) := by
  rw [build_dict, build_dict, List.foldl_append]

/-! Extraction view of the per group dicts: when no (origin, sharedIndex)
pair repeats in a group, every dict write hits a fresh key and the dict is
the ordered projection of the records of that origin. -/

/-- The (origin, sharedIndex) pairs of a value list, in order. -/
def pairsOf (vs : List TaggedValue) : List (Origin × Nat) :=
  vs.map (fun tv => (tv.1, tv.2.1))

/-- The ordered (index, value) projection of the records of one origin. -/
def extractDict (o : Origin) (vs : List TaggedValue) : List (Nat × Val) :=
  (vs.filter (fun tv => tv.1 = o)).map (fun tv => (tv.2.1, tv.2.2))

theorem pairsOf_cons (tv : TaggedValue) (vs : List TaggedValue) :
    pairsOf (tv :: vs) = (tv.1, tv.2.1) :: pairsOf vs := rfl

theorem build_dict_eq_extractDict_aux (o : Origin) (vs : List TaggedValue) :
    ∀ (d : List (Nat × Val)),
    (∀ tv ∈ vs, tv.1 = o → tv.2.1 ∉ keysOf d) → (pairsOf vs).Nodup →
    vs.foldl (fun d tv => if tv.1 = o then dinsert d tv.2.1 tv.2.2 else d) d =
      d ++ extractDict o vs := by
  induction vs with
  | nil => intro d _ _; simp [extractDict]
  | cons tv rest ih =>
    intro d hfresh hnd
    rw [pairsOf_cons, List.nodup_cons] at hnd
    rw [List.foldl_cons]
    by_cases h : tv.1 = o
    · rw [if_pos h,
        dinsert_fresh d tv.2.1 tv.2.2 (hfresh tv (List.mem_cons_self _ _) h)]
      rw [ih (d ++ [(tv.2.1, tv.2.2)]) ?fresh2 hnd.2]
      · have hx : extractDict o (tv :: rest) =
            (tv.2.1, tv.2.2) :: extractDict o rest := by
          rw [extractDict, extractDict, List.filter_cons, if_pos (by simp [h]),
            List.map_cons]
        rw [hx, List.append_assoc, List.singleton_append]
      case fresh2 =>
        intro tv2 h2 ho
        rw [keysOf_append, List.mem_append]
        push_neg
        refine ⟨hfresh tv2 (List.mem_cons_of_mem _ h2) ho, ?_⟩
        intro hm
        apply hnd.1
        have hk2 : tv2.2.1 = tv.2.1 := by
          simpa [keysOf] using hm
        have : ((tv.1, tv.2.1) : Origin × Nat) = (tv2.1, tv2.2.1) := by
          rw [ho, h, hk2]
        rw [this, pairsOf]
        exact List.mem_map_of_mem _ h2
    · rw [if_neg h]
      have hx : extractDict o (tv :: rest) = extractDict o rest := by
        rw [extractDict, extractDict, List.filter_cons, if_neg (by simp [h])]
      rw [hx]
      exact ih d (fun tv2 h2 ho => hfresh tv2 (List.mem_cons_of_mem _ h2) ho)
        hnd.2

theorem build_dict_eq_extractDict (o : Origin) (vs : List TaggedValue)
    (hnd : (pairsOf vs).Nodup) : build_dict o vs = extractDict o vs := by
  rw [build_dict]
  have h := build_dict_eq_extractDict_aux o vs [] (by simp [keysOf]) hnd
  simpa using h

/-! The canonical group of an in range key has no repeated
(origin, sharedIndex) pair, and its dicts are exactly the rows of A and
the columns of B restricted to the shared index range. -/

theorem pairsOf_canonicalGroup (a b : Mat) (n i j : Nat) :
    pairsOf (canonicalGroup a b n i j) =
      ((List.range n).map fun k => ((Origin.A, k) : Origin × Nat)) ++
        ((List.range n).map fun k => ((Origin.B, k) : Origin × Nat)) := by
  rw [canonicalGroup, pairsOf, List.map_append, List.map_map, List.map_map]
  rfl

theorem nodup_pairsOf_canonicalGroup (a b : Mat) (n i j : Nat) :
    (pairsOf (canonicalGroup a b n i j)).Nodup := by
  rw [pairsOf_canonicalGroup]
  apply List.Nodup.append
  · exact (List.nodup_range n).map
      (fun k1 k2 h => by simpa [Prod.mk.injEq] using h)
  · exact (List.nodup_range n).map
      (fun k1 k2 h => by simpa [Prod.mk.injEq] using h)
  · intro x hx hy
    obtain ⟨k1, _, hk1⟩ := List.mem_map.mp hx
    obtain ⟨k2, _, hk2⟩ := List.mem_map.mp hy
    rw [← hk1] at hk2
    simpa using congrArg Prod.fst hk2

theorem extractDict_A_canonicalGroup (a b : Mat) (n i j : Nat) :
    extractDict Origin.A (canonicalGroup a b n i j) =
      (List.range n).map (fun k => (k, cell a i k)) := by
  rw [extractDict, canonicalGroup, List.filter_append,
    List.filter_map, List.filter_map]
  have h1 : ((List.range n).filter
      ((fun tv : TaggedValue => decide (tv.1 = Origin.A)) ∘
        (fun k => ((Origin.A, k, cell a i k) : TaggedValue)))) =
      List.range n := by
    apply List.filter_eq_self.mpr
    intro x _
    simp [Function.comp]
  have h2 : ((List.range n).filter
      ((fun tv : TaggedValue => decide (tv.1 = Origin.A)) ∘
        (fun k => ((Origin.B, k, cell b k j) : TaggedValue)))) = [] := by
    apply List.filter_eq_nil_iff.mpr
    intro x _
    simp [Function.comp]
  rw [h1, h2, List.map_nil, List.append_nil, List.map_map]
  rfl

theorem extractDict_B_canonicalGroup (a b : Mat) (n i j : Nat) :
    extractDict Origin.B (canonicalGroup a b n i j) =
      (List.range n).map (fun k => (k, cell b k j)) := by
  rw [extractDict, canonicalGroup, List.filter_append,
    List.filter_map, List.filter_map]
  have h1 : ((List.range n).filter
      ((fun tv : TaggedValue => decide (tv.1 = Origin.B)) ∘
        (fun k => ((Origin.A, k, cell a i k) : TaggedValue)))) = [] := by
    apply List.filter_eq_nil_iff.mpr
    intro x _
    simp [Function.comp]
  have h2 : ((List.range n).filter
      ((fun tv : TaggedValue => decide (tv.1 = Origin.B)) ∘
        (fun k => ((Origin.B, k, cell b k j) : TaggedValue)))) =
      List.range n := by
    apply List.filter_eq_self.mpr
    intro x _
    simp [Function.comp]
  rw [h1, h2, List.map_nil, List.nil_append, List.map_map]
  rfl

/-! Lemmas about the dot product loop. -/

theorem foldl_congr_mem {α β : Type} (l : List α) (f g : β → α → β) :
    ∀ b, (∀ acc x, x ∈ l → f acc x = g acc x) →
    l.foldl f b = l.foldl g b := by
  induction l with
  | nil => intro b _; rfl
  | cons hd tl ih =>
    intro b h
    rw [List.foldl_cons, List.foldl_cons, h b hd (by simp)]
    exact ih _ (fun acc x hx => h acc x (by simp [hx]))

theorem lookupAL_range_map (n : Nat) (f : Nat → Val) (q : Nat) :
    lookupAL ((List.range n).map (fun k => (k, f k))) q =
      if q < n then some (f q) else none := by
  induction n with
  | zero => simp [lookupAL]
  | succ n ih =>
    rw [List.range_succ, List.map_append, lookupAL_append, ih]
    by_cases h : q < n
    · rw [if_pos h, if_pos (by omega)]
    · rw [if_neg h]
      by_cases h2 : q = n
      · subst h2
        simp [lookupAL]
      · have h3 : ¬ n = q := fun hh => h2 hh.symm
        have h4 : ¬ q < n + 1 := by omega
        simp [lookupAL, h3, h4]

theorem dot_product_shift (av bv : List (Nat × Val)) :
    ∀ acc : Val,
    av.foldl (fun acc kv =>
      match lookupAL bv kv.1 with
      | some bval => acc + kv.2 * bval
      | none => acc) acc = acc + dot_product av bv := by
  induction av with
  | nil => intro acc; simp [dot_product]
  | cons kv rest ih =>
    intro acc
    rw [List.foldl_cons, ih]
    have hr : dot_product (kv :: rest) bv =
        (match lookupAL bv kv.1 with
         | some bval => (0 : Val) + kv.2 * bval
         | none => (0 : Val)) + dot_product rest bv := by
      rw [dot_product, List.foldl_cons]
      exact ih _
    rw [hr]
    cases hl : lookupAL bv kv.1 <;> simp <;> ring

theorem dot_product_cons (k0 : Nat) (v0 : Val) (rest bv : List (Nat × Val)) :
    dot_product ((k0, v0) :: rest) bv =
      (match lookupAL bv k0 with
       | some bval => v0 * bval
       | none => (0 : Val)) + dot_product rest bv := by
  rw [dot_product, List.foldl_cons, dot_product_shift]
  cases hl : lookupAL bv k0 <;> simp [hl]

theorem list_map_range_sum (f : Nat → Val) (n : Nat) :
    ((List.range n).map f).sum = ∑ k ∈ Finset.range n, f k := by
  induction n with
  | zero => simp
  | succ n ih =>
    rw [List.range_succ, List.map_append, List.sum_append,
      Finset.sum_range_succ, ih]
    simp

theorem dot_product_canonical (n : Nat) (fa fb : Nat → Val) :
    dot_product ((List.range n).map fun k => (k, fa k))
        ((List.range n).map fun k => (k, fb k)) =
      ∑ k ∈ Finset.range n, fa k * fb k := by
  induction n with
  | zero => simp [dot_product]
  | succ n ih =>
    have hbv : List.map (fun k => (k, fb k)) (List.range n) ++
        List.map (fun k => (k, fb k)) [n] =
        List.map (fun k => (k, fb k)) (List.range (n + 1)) := by
      rw [← List.map_append, ← List.range_succ]
    rw [dot_product, List.range_succ, List.map_append, List.map_append,
      List.foldl_append, hbv]
    have hcongr : (List.map (fun k => (k, fa k)) (List.range n)).foldl
        (fun acc kv =>
          match lookupAL (List.map (fun k => (k, fb k))
              (List.range (n + 1))) kv.1 with
          | some bval => acc + kv.2 * bval
          | none => acc) 0 =
        (List.map (fun k => (k, fa k)) (List.range n)).foldl
        (fun acc kv =>
          match lookupAL (List.map (fun k => (k, fb k))
              (List.range n)) kv.1 with
          | some bval => acc + kv.2 * bval
          | none => acc) 0 := by
      apply foldl_congr_mem
      intro acc x hx
      obtain ⟨k, hk, hkx⟩ := List.mem_map.mp hx
      rw [List.mem_range] at hk
      have h1 : lookupAL (List.map (fun k => (k, fb k))
          (List.range (n + 1))) x.1 = some (fb x.1) := by
        rw [lookupAL_range_map, if_pos (by rw [← hkx]; omega)]
      have h2 : lookupAL (List.map (fun k => (k, fb k))
          (List.range n)) x.1 = some (fb x.1) := by
        rw [lookupAL_range_map, if_pos (by rw [← hkx]; exact hk)]
      rw [h1, h2]
    rw [hcongr]
    have hd : (List.map (fun k => (k, fa k)) (List.range n)).foldl
        (fun acc kv =>
          match lookupAL (List.map (fun k => (k, fb k))
              (List.range n)) kv.1 with
          | some bval => acc + kv.2 * bval
          | none => acc) 0 =
        dot_product (List.map (fun k => (k, fa k)) (List.range n))
          (List.map (fun k => (k, fb k)) (List.range n)) := rfl
    rw [hd, ih]
    rw [List.map_cons, List.map_nil, List.foldl_cons, List.foldl_nil,
      lookupAL_range_map, if_pos (by omega), Finset.sum_range_succ]

/-! Permutation invariance of the reduce step on well formed groups. -/

theorem dot_product_perm (av av2 bv bv2 : List (Nat × Val))
    (ha : av2.Perm av)
    (hb : ∀ k, lookupAL bv2 k = lookupAL bv k) :
    dot_product av2 bv2 = dot_product av bv := by
  rw [dot_product, dot_product]
  have hfeq : (fun (acc : Val) (kv : Nat × Val) =>
      match lookupAL bv2 kv.1 with
      | some bval => acc + kv.2 * bval
      | none => acc) = (fun acc kv =>
      match lookupAL bv kv.1 with
      | some bval => acc + kv.2 * bval
      | none => acc) := by
    funext acc kv
    rw [hb]
  rw [hfeq]
  apply ha.foldl_eq'
  intro x _ y _ z
  cases lookupAL bv x.1 <;> cases lookupAL bv y.1 <;> simp <;> ring

theorem reduce_cell_perm (vs vs2 : List TaggedValue)
    (hnd : (pairsOf vs).Nodup) (hp : vs2.Perm vs) :
    reduce_cell vs2 = reduce_cell vs := by
  have hnd2 : (pairsOf vs2).Nodup := (hp.map _).nodup_iff.mpr hnd
  rw [reduce_cell, reduce_cell,
    build_dict_eq_extractDict Origin.A vs hnd,
    build_dict_eq_extractDict Origin.B vs hnd,
    build_dict_eq_extractDict Origin.A vs2 hnd2,
    build_dict_eq_extractDict Origin.B vs2 hnd2]
  apply dot_product_perm
  · exact (hp.filter _).map _
  · intro k
    have hkeys : (keysOf (extractDict Origin.B vs2)).Nodup := by
      rw [← build_dict_eq_extractDict Origin.B vs2 hnd2]
      exact nodup_keysOf_build_dict Origin.B vs2
    exact lookupAL_eq_of_perm hkeys ((hp.filter _).map _) k

theorem reduce_cell_canonicalGroup (a b : Mat) (n i j : Nat) :
    reduce_cell (canonicalGroup a b n i j) =
      ∑ k ∈ Finset.range n, cell a i k * cell b k j := by
  rw [reduce_cell,
    build_dict_eq_extractDict _ _ (nodup_pairsOf_canonicalGroup a b n i j),
    build_dict_eq_extractDict _ _ (nodup_pairsOf_canonicalGroup a b n i j),
    extractDict_A_canonicalGroup, extractDict_B_canonicalGroup,
    dot_product_canonical]

/-! Lemmas about cell reads, cell writes and the zero matrix. -/

theorem getD_set_self {α : Type} :
    ∀ (l : List α) (i : Nat) (v d : α), i < l.length →
    (l.set i v).getD i d = v := by
  intro l
  induction l with
  | nil => intro i v d h; simp at h
  | cons hd tl ih =>
    intro i v d h
    cases i with
    | zero => simp
    | succ i =>
      rw [List.set_cons_succ, List.getD_cons_succ]
      exact ih i v d (by simpa using h)

theorem getD_set_ne {α : Type} :
    ∀ (l : List α) (i : Nat) (v d : α) (j : Nat), j ≠ i →
    (l.set i v).getD j d = l.getD j d := by
  intro l
  induction l with
  | nil => intro i v d j _; simp
  | cons hd tl ih =>
    intro i v d j hne
    cases i with
    | zero =>
      cases j with
      | zero => exact absurd rfl hne
      | succ j => simp
    | succ i =>
      cases j with
      | zero => simp
      | succ j =>
        rw [List.set_cons_succ, List.getD_cons_succ, List.getD_cons_succ]
        exact ih i v d j (by omega)

theorem mem_set_of_mem {α : Type} :
    ∀ (l : List α) (i : Nat) (v x : α), x ∈ l.set i v → x ∈ l ∨ x = v := by
  intro l
  induction l with
  | nil => intro i v x h; simp at h
  | cons hd tl ih =>
    intro i v x h
    cases i with
    | zero =>
      rcases List.mem_cons.mp h with h1 | h1
      · exact Or.inr h1
      · exact Or.inl (List.mem_cons_of_mem _ h1)
    | succ i =>
      rcases List.mem_cons.mp h with h1 | h1
      · exact Or.inl (h1 ▸ List.mem_cons_self _ _)
      · rcases ih i v x h1 with h2 | h2
        · exact Or.inl (List.mem_cons_of_mem _ h2)
        · exact Or.inr h2

theorem getD_of_get?_eq_some {α : Type} {l : List α} {i : Nat} {x d : α}
    (h : l.get? i = some x) : l.getD i d = x := by
  rw [List.getD_eq_getD_get?, h]
  rfl

theorem setCell_length (mat : Mat) (i j : Nat) (v : Val) :
    (setCell mat i j v).length = mat.length := by
  rw [setCell]
  cases h : mat.get? i <;> simp

theorem setCell_rows (mat : Mat) (i j : Nat) (v : Val) (p : Nat)
    (hrows : ∀ r ∈ mat, r.length = p) :
    ∀ r ∈ setCell mat i j v, r.length = p := by
  rw [setCell]
  cases h : mat.get? i with
  | none => exact hrows
  | some row =>
    intro r hr
    rcases mem_set_of_mem _ _ _ _ hr with h1 | h1
    · exact hrows r h1
    · rw [h1, List.length_set]
      exact hrows row (List.get?_mem h)

theorem cell_setCell_same (mat : Mat) (i j : Nat) (v : Val) (p : Nat)
    (hrows : ∀ r ∈ mat, r.length = p) (hi : i < mat.length) (hj : j < p) :
    cell (setCell mat i j v) i j = v := by
  rw [setCell]
  cases h : mat.get? i with
  | none =>
    rw [List.get?_eq_none] at h
    omega
  | some row =>
    rw [cell, getD_set_self mat i (row.set j v) [] hi,
      getD_set_self row j v 0 (by rw [hrows row (List.get?_mem h)]; exact hj)]

theorem cell_setCell_ne (mat : Mat) (i j : Nat) (v : Val) (i2 j2 : Nat)
    (h : ¬ (i2 = i ∧ j2 = j)) :
    cell (setCell mat i j v) i2 j2 = cell mat i2 j2 := by
  rw [setCell]
  cases hrow : mat.get? i with
  | none => rfl
  | some row =>
    by_cases h1 : i2 = i
    · subst h1
      have hj2 : j2 ≠ j := fun hh => h ⟨rfl, hh⟩
      have hi : i2 < mat.length := by
        by_contra hx
        rw [List.get?_eq_none.mpr (by omega)] at hrow
        cases hrow
      rw [cell, cell, getD_set_self mat i2 (row.set j v) [] hi,
        getD_of_get?_eq_some hrow, getD_set_ne row j v 0 j2 hj2]
    · rw [cell, cell, getD_set_ne mat i (row.set j v) [] i2 h1]

theorem getD_replicate {α : Type} :
    ∀ (m i : Nat) (x d : α), (List.replicate m x).getD i d =
      if i < m then x else d := by
  intro m
  induction m with
  | zero => intro i x d; simp
  | succ m ih =>
    intro i x d
    cases i with
    | zero => simp [List.replicate]
    | succ i =>
      rw [List.replicate, List.getD_cons_succ, ih]
      by_cases h : i < m
      · rw [if_pos h, if_pos (by omega)]
      · rw [if_neg h, if_neg (by omega)]

theorem cell_zeroMatrix (m p i j : Nat) : cell (zeroMatrix m p) i j = 0 := by
  rw [zeroMatrix, cell, getD_replicate]
  by_cases h : i < m
  · rw [if_pos h, getD_replicate]
    by_cases h2 : j < p
    · rw [if_pos h2]
    · rw [if_neg h2]
  · rw [if_neg h]
    simp

theorem zeroMatrix_length (m p : Nat) : (zeroMatrix m p).length = m := by
  simp [zeroMatrix]

theorem zeroMatrix_rows (m p : Nat) :
    ∀ r ∈ zeroMatrix m p, r.length = p := by
  intro r hr
  rw [zeroMatrix] at hr
  rw [List.eq_of_mem_replicate hr]
  simp

/-! The reduce loop: a fold of cell writes over the sorted items. -/

theorem reduceFold_length (items : MappedValues) :
    ∀ (mat0 : Mat),
    (items.foldl (fun mat kv => setCell mat kv.1.1 kv.1.2 (reduce_cell kv.2))
      mat0).length = mat0.length := by
  induction items with
  | nil => intro mat0; rfl
  | cons kv rest ih =>
    intro mat0
    rw [List.foldl_cons, ih, setCell_length]

theorem reduceFold_rows (items : MappedValues) (p : Nat) :
    ∀ (mat0 : Mat), (∀ r ∈ mat0, r.length = p) →
    ∀ r ∈ items.foldl
      (fun mat kv => setCell mat kv.1.1 kv.1.2 (reduce_cell kv.2)) mat0,
      r.length = p := by
  induction items with
  | nil => intro mat0 h; exact h
  | cons kv rest ih =>
    intro mat0 h
    rw [List.foldl_cons]
    exact ih _ (setCell_rows mat0 kv.1.1 kv.1.2 _ p h)

theorem reduceFold_cell_absent (items : MappedValues) :
    ∀ (mat0 : Mat) (i j : Nat), (i, j) ∉ keysOf items →
    cell (items.foldl
      (fun mat kv => setCell mat kv.1.1 kv.1.2 (reduce_cell kv.2)) mat0) i j =
      cell mat0 i j := by
  induction items with
  | nil => intro mat0 i j _; rfl
  | cons kv rest ih =>
    intro mat0 i j habs
    obtain ⟨⟨ki, kj⟩, vs⟩ := kv
    rw [keysOf_cons, List.mem_cons] at habs
    push_neg at habs
    rw [List.foldl_cons, ih _ i j habs.2]
    apply cell_setCell_ne
    intro hh
    exact habs.1 (by rw [hh.1, hh.2])

theorem reduceFold_cell_present (items : MappedValues) (m p : Nat) :
    ∀ (mat0 : Mat) (i j : Nat) (vs : List TaggedValue),
    (keysOf items).Nodup → lookupAL items (i, j) = some vs →
    mat0.length = m → (∀ r ∈ mat0, r.length = p) → i < m → j < p →
    cell (items.foldl
      (fun mat kv => setCell mat kv.1.1 kv.1.2 (reduce_cell kv.2)) mat0) i j =
      reduce_cell vs := by
  induction items with
  | nil => intro mat0 i j vs _ hl; simp [lookupAL] at hl
  | cons kv rest ih =>
    intro mat0 i j vs hnd hl hlen hrows hi hj
    obtain ⟨⟨ki, kj⟩, ws⟩ := kv
    rw [keysOf_cons, List.nodup_cons] at hnd
    rw [List.foldl_cons]
    by_cases hk : ((ki, kj) : OutputKey) = (i, j)
    · rw [lookupAL_cons, if_pos hk] at hl
      cases hl
      have habs : ((i, j) : OutputKey) ∉ keysOf rest := hk ▸ hnd.1
      rw [reduceFold_cell_absent rest _ i j habs]
      have hk1 : ki = i := congrArg Prod.fst hk
      have hk2 : kj = j := congrArg Prod.snd hk
      rw [hk1, hk2]
      exact cell_setCell_same mat0 i j _ p hrows (by omega) hj
    · rw [lookupAL_cons, if_neg hk] at hl
      exact ih _ i j vs hnd.2 hl (by rw [setCell_length, hlen])
        (setCell_rows mat0 ki kj _ p hrows) hi hj

/-! The insertion sort modelling sorted(mapped_values.items()). -/

theorem insertSorted_perm (x : OutputKey × List TaggedValue) :
    ∀ (l : MappedValues), (insertSorted x l).Perm (x :: l) := by
  intro l
  induction l with
  | nil => exact List.Perm.refl _
  | cons y ys ih =>
    rw [insertSorted]
    by_cases h : keyLe x.1 y.1
    · rw [if_pos h]
    · rw [if_neg h]
      exact (ih.cons y).trans (List.Perm.swap x y ys)

theorem sortItems_perm (l : MappedValues) : (sortItems l).Perm l := by
  induction l with
  | nil => exact List.Perm.refl _
  | cons x xs ih =>
    rw [sortItems, List.foldr_cons]
    have h1 : (insertSorted x (xs.foldr insertSorted [])).Perm
        (x :: xs.foldr insertSorted []) := insertSorted_perm x _
    exact h1.trans (ih.cons x)

/-! The central characterisation of reduce_phase. -/

theorem cell_reduce_phase (mapped : MappedValues) (m p i j : Nat)
    (hnd : (keysOf mapped).Nodup) (hi : i < m) (hj : j < p) :
    cell (reduce_phase mapped (m, p)) i j =
      match lookupAL mapped (i, j) with
      | some vs => reduce_cell vs
      | none => 0 := by
  rw [reduce_phase]
  have hperm := sortItems_perm mapped
  have hnds : (keysOf (sortItems mapped)).Nodup :=
    ((hperm.map Prod.fst).nodup_iff).mpr hnd
  have hlook : lookupAL (sortItems mapped) (i, j) = lookupAL mapped (i, j) :=
    lookupAL_eq_of_perm hnds hperm (i, j)
  cases hc : lookupAL mapped (i, j) with
  | none =>
    have habs : ((i, j) : OutputKey) ∉ keysOf (sortItems mapped) :=
      (lookupAL_eq_none_iff _ _).mp (hlook.trans hc)
    rw [reduceFold_cell_absent _ _ i j habs, cell_zeroMatrix]
  | some vs =>
    exact reduceFold_cell_present (sortItems mapped) m p (zeroMatrix m p) i j
      vs hnds (hlook.trans hc) (zeroMatrix_length m p) (zeroMatrix_rows m p)
      hi hj

theorem reduce_phase_length (mapped : MappedValues) (m p : Nat) :
    (reduce_phase mapped (m, p)).length = m := by
  rw [reduce_phase, reduceFold_length, zeroMatrix_length]

theorem reduce_phase_rows (mapped : MappedValues) (m p : Nat) :
    ∀ r ∈ reduce_phase mapped (m, p), r.length = p := by
  rw [reduce_phase]
  exact reduceFold_rows _ p _ (zeroMatrix_rows m p)

/-! The dot product as a sum over the shared indices present in both
dicts. -/

theorem dot_product_eq_sum (av bv : List (Nat × Val)) :
    (keysOf av).Nodup →
    dot_product av bv =
      ∑ k ∈ ((keysOf av).toFinset ∩ (keysOf bv).toFinset),
        (lookupAL av k).getD 0 * (lookupAL bv k).getD 0 := by
  induction av with
  | nil => intro _; simp [dot_product, keysOf]
  | cons kv rest ih =>
    obtain ⟨k0, v0⟩ := kv
    intro hnd
    rw [keysOf_cons, List.nodup_cons] at hnd
    rw [dot_product_cons, ih hnd.2, keysOf_cons, List.toFinset_cons]
    have hsum : ∀ (s : Finset Nat), k0 ∉ s →
        ∑ k ∈ s, (lookupAL ((k0, v0) :: rest) k).getD 0 *
          (lookupAL bv k).getD 0 =
        ∑ k ∈ s, (lookupAL rest k).getD 0 * (lookupAL bv k).getD 0 := by
      intro s hs
      apply Finset.sum_congr rfl
      intro k hk
      have hk0 : ¬ k0 = k := fun hh => hs (hh ▸ hk)
      rw [lookupAL_cons, if_neg hk0]
    by_cases hb : k0 ∈ keysOf bv
    · have hbt : k0 ∈ (keysOf bv).toFinset := List.mem_toFinset.mpr hb
      rw [Finset.insert_inter_of_mem hbt]
      have hk0 : k0 ∉ ((keysOf rest).toFinset ∩ (keysOf bv).toFinset) := by
        intro hmem
        exact hnd.1 (List.mem_toFinset.mp (Finset.mem_inter.mp hmem).1)
      rw [Finset.sum_insert hk0,
        hsum _ (fun hmem => hnd.1 (List.mem_toFinset.mp
          (Finset.mem_inter.mp hmem).1))]
      have hself : lookupAL ((k0, v0) :: rest) k0 = some v0 := by
        rw [lookupAL_cons, if_pos rfl]
      rw [hself]
      cases hlb : lookupAL bv k0 with
      | none =>
        exact absurd ((lookupAL_eq_none_iff bv k0).mp hlb) (fun hh => hh hb)
      | some w => simp
    · have hni : k0 ∉ (keysOf bv).toFinset :=
        fun hmem => hb (List.mem_toFinset.mp hmem)
      rw [Finset.insert_inter_of_not_mem hni,
        hsum _ (fun hmem => hnd.1 (List.mem_toFinset.mp
          (Finset.mem_inter.mp hmem).1))]
      have hlb : lookupAL bv k0 = none := (lookupAL_eq_none_iff _ _).mpr hb
      rw [hlb]
      simp

/-! Validation lemmas: mkMatrix and the head of map_phase. -/

theorem mkMatrix_ok (rows : Mat) (r0 : List Val) (rest : Mat)
    (h : rows = r0 :: rest) (hall : ∀ r ∈ rows, r.length = r0.length) :
    mkMatrix rows = .ok rows := by
  subst h
  rw [mkMatrix]
  rw [if_pos]
  apply List.all_eq_true.mpr
  intro r hr
  exact beq_iff_eq.mpr (hall r hr)

theorem mkMatrix_ok_inv (rows : Mat) (x : Mat)
    (h : mkMatrix rows = .ok x) :
    x = rows ∧ ∃ r0 rest, rows = r0 :: rest ∧
      ∀ r ∈ rows, r.length = r0.length := by
  cases rows with
  | nil => cases h
  | cons r0 rest =>
    rw [mkMatrix] at h
    by_cases hall : (r0 :: rest).all (fun r => r.length == r0.length)
    · rw [if_pos hall] at h
      cases h
      refine ⟨rfl, r0, rest, rfl, ?_⟩
      intro r hr
      exact beq_iff_eq.mp (List.all_eq_true.mp hall r hr)
    · rw [if_neg hall] at h
      cases h

theorem mkMatrix_error_form (rows : Mat) (e : EngineError)
    (h : mkMatrix rows = .error e) :
    ∃ lens, e = EngineError.shapeError lens := by
  cases rows with
  | nil =>
    rw [mkMatrix] at h
    cases h
    exact ⟨[], rfl⟩
  | cons r0 rest =>
    rw [mkMatrix] at h
    by_cases hall : (r0 :: rest).all (fun r => r.length == r0.length)
    · rw [if_pos hall] at h
      cases h
    · rw [if_neg hall] at h
      cases h
      exact ⟨(r0 :: rest).map List.length, rfl⟩

theorem mkMatrix_bad (rows : Mat)
    (hbad : rows = [] ∨ ¬ ∀ r ∈ rows, r.length = (rows.headD []).length) :
    ∃ lens, mkMatrix rows = .error (.shapeError lens) := by
  cases rows with
  | nil => exact ⟨[], rfl⟩
  | cons r0 rest =>
    rcases hbad with hbad | hbad
    · cases hbad
    · rw [mkMatrix, if_neg]
      · exact ⟨(r0 :: rest).map List.length, rfl⟩
      · intro hall
        apply hbad
        intro r hr
        have := List.all_eq_true.mp hall r hr
        rw [List.headD_cons]
        exact beq_iff_eq.mp this

theorem map_phase_ok (a b : Mat) (m n p : Nat) (hm : a.length = m)
    (hmpos : 1 ≤ m) (hna : ∀ r ∈ a, r.length = n) (hbl : b.length = n)
    (hpb : ∀ r ∈ b, r.length = p) (hnpos : 1 ≤ n) :
    map_phase a b = .ok (group_records (contributions a b m n p), (m, p)) := by
  cases a with
  | nil => rw [List.length_nil] at hm; omega
  | cons r0 arest =>
    cases b with
    | nil => rw [List.length_nil] at hbl; omega
    | cons s0 brest =>
      have hr0 : r0.length = n := hna r0 (List.mem_cons_self _ _)
      have hs0 : s0.length = p := hpb s0 (List.mem_cons_self _ _)
      have hcond : ¬ ((s0 :: brest).length ≠ r0.length) := by
        rw [hbl, hr0]
        exact fun hh => hh rfl
      show (if (s0 :: brest).length ≠ r0.length then
          Except.error (EngineError.dimensionMismatch (r0 :: arest).length
            r0.length (s0 :: brest).length s0.length)
        else Except.ok (group_records (contributions (r0 :: arest)
            (s0 :: brest) (r0 :: arest).length r0.length s0.length),
          ((r0 :: arest).length, s0.length))) = _
      rw [if_neg hcond, hr0, hs0, hm]

theorem map_phase_mismatch (a b : Mat) (m n n2 p : Nat)
    (hm : a.length = m) (hmpos : 1 ≤ m) (hna : ∀ r ∈ a, r.length = n)
    (hbl : b.length = n2) (hn2pos : 1 ≤ n2) (hpb : ∀ r ∈ b, r.length = p)
    (hne : n2 ≠ n) :
    map_phase a b = .error (.dimensionMismatch m n n2 p) := by
  cases a with
  | nil => rw [List.length_nil] at hm; omega
  | cons r0 arest =>
    cases b with
    | nil => rw [List.length_nil] at hbl; omega
    | cons s0 brest =>
      have hr0 : r0.length = n := hna r0 (List.mem_cons_self _ _)
      have hs0 : s0.length = p := hpb s0 (List.mem_cons_self _ _)
      have hcond : (s0 :: brest).length ≠ r0.length := by
        rw [hbl, hr0]
        exact hne
      show (if (s0 :: brest).length ≠ r0.length then
          Except.error (EngineError.dimensionMismatch (r0 :: arest).length
            r0.length (s0 :: brest).length s0.length)
        else Except.ok (group_records (contributions (r0 :: arest)
            (s0 :: brest) (r0 :: arest).length r0.length s0.length),
          ((r0 :: arest).length, s0.length))) = _
      rw [if_pos hcond, hr0, hs0, hm, hbl]

theorem cell_reduce_phase_absent (mapped : MappedValues) (m p i j : Nat)
    (h : lookupAL mapped (i, j) = none) :
    cell (reduce_phase mapped (m, p)) i j = 0 := by
  rw [reduce_phase]
  have habs : ((i, j) : OutputKey) ∉ keysOf mapped :=
    (lookupAL_eq_none_iff _ _).mp h
  have habs2 : ((i, j) : OutputKey) ∉ keysOf (sortItems mapped) := by
    intro hmem
    exact habs (((sortItems_perm mapped).map Prod.fst).mem_iff.mp hmem)
  rw [reduceFold_cell_absent _ _ i j habs2, cell_zeroMatrix]

/-! Helper facts for evaluating concrete runs. -/

theorem origin_B_ne_A : (Origin.B = Origin.A) = False := by simp

theorem origin_A_ne_B : (Origin.A = Origin.B) = False := by simp

/-! The claims. -/

/-- C1: for every pair of rectangular matrices A (m by n) and B (n by p)
with m, n, p at least 1, map_phase followed by reduce_phase produces a
result matrix C with C[i][j] equal to the sum over k of A[i][k] times
B[k][j] for every i below m and j below p; in particular
A = [[1,2],[3,4]] and B = [[5,6],[7,8]] yield [[19,22],[43,50]]. -/
theorem claim_C1_mapreduce_multiplies :
    (∀ (a b : Mat) (m n p : Nat),
      a.length = m → (∀ r ∈ a, r.length = n) →
      b.length = n → (∀ r ∈ b, r.length = p) →
      1 ≤ m → 1 ≤ n → 1 ≤ p →
      ∃ mapped, map_phase a b = .ok (mapped, (m, p)) ∧
        ∀ i < m, ∀ j < p,
          cell (reduce_phase mapped (m, p)) i j =
            ∑ k ∈ Finset.range n, cell a i k * cell b k j) ∧
    engine_run [[1, 2], [3, 4]] [[5, 6], [7, 8]] =
      .ok [[19, 22], [43, 50]] := by
  constructor
  · intro a b m n p hm hna hbl hpb hmpos hnpos _
    refine ⟨group_records (contributions a b m n p),
      map_phase_ok a b m n p hm hmpos hna hbl hpb hnpos, ?_⟩
    intro i hi j hj
    have hval : valuesOf (contributions a b m n p) (i, j) =
        canonicalGroup a b n i j := by
      rw [valuesOf_contributions, if_pos ⟨hi, hj⟩]
    have hne : canonicalGroup a b n i j ≠ [] := by
      intro hnil
      have hlen := length_canonicalGroup a b n i j
      rw [hnil] at hlen
      simp at hlen
      omega
    rw [cell_reduce_phase _ m p i j (nodup_keysOf_group_records _) hi hj,
      lookupAL_group_records, hval, if_neg hne]
    exact reduce_cell_canonicalGroup a b n i j
  · norm_num [origin_B_ne_A, origin_A_ne_B, engine_run, mkMatrix, map_phase,
      contributions, contributions_A, contributions_B, group_records,
      appendAt, reduce_phase, sortItems, insertSorted, keyLe, zeroMatrix,
      setCell, reduce_cell, build_dict, dot_product, dinsert, lookupAL, cell,
      List.range_succ, Bind.bind, Except.bind, List.replicate, List.set,
      Pure.pure, Except.pure]

/-- Witness for C1 at the concrete scenario A = [[1,2],[3,4]],
B = [[5,6],[7,8]] (m = n = p = 2). -/
theorem claim_C1_witness :
    (([[1, 2], [3, 4]] : Mat).length = 2 ∧
      (∀ r ∈ ([[1, 2], [3, 4]] : Mat), r.length = 2) ∧
      ([[5, 6], [7, 8]] : Mat).length = 2 ∧
      (∀ r ∈ ([[5, 6], [7, 8]] : Mat), r.length = 2)) ∧
    (∃ mapped,
      map_phase [[1, 2], [3, 4]] [[5, 6], [7, 8]] = .ok (mapped, (2, 2)) ∧
      ∀ i < 2, ∀ j < 2,
        cell (reduce_phase mapped (2, 2)) i j =
          ∑ k ∈ Finset.range 2,
            cell [[1, 2], [3, 4]] i k * cell [[5, 6], [7, 8]] k j) :=
  ⟨⟨by decide, by decide, by decide, by decide⟩,
    claim_C1_mapreduce_multiplies.1 [[1, 2], [3, 4]] [[5, 6], [7, 8]] 2 2 2
      (by decide) (by decide) (by decide) (by decide) (by decide) (by decide)
      (by decide)⟩

/-- C2: for compatible A (m by n) and B (n by p), map_phase emits exactly
2 m n p records; the produced key set is exactly the grid below (m, p); and
the group of each key (i, j) is exactly the n origin A records (one per k,
valued A[i][k]) followed by the n origin B records (one per k, valued
B[k][j]), 2 n records in all. -/
theorem claim_C2_mapper_emission (a b : Mat) (m n p : Nat)
    (hm : a.length = m) (hna : ∀ r ∈ a, r.length = n)
    (hbl : b.length = n) (hpb : ∀ r ∈ b, r.length = p)
    (hmpos : 1 ≤ m) (hnpos : 1 ≤ n) :
    map_phase a b = .ok (group_records (contributions a b m n p), (m, p)) ∧
    (contributions a b m n p).length = 2 * m * n * p ∧
    (∀ i j : Nat,
      ((i, j) : OutputKey) ∈ keysOf (group_records (contributions a b m n p))
        ↔ i < m ∧ j < p) ∧
    (∀ i < m, ∀ j < p,
      lookupAL (group_records (contributions a b m n p)) (i, j) =
        some (canonicalGroup a b n i j) ∧
      canonicalGroup a b n i j =
        ((List.range n).map fun k =>
          ((Origin.A, k, cell a i k) : TaggedValue)) ++
        ((List.range n).map fun k =>
          ((Origin.B, k, cell b k j) : TaggedValue)) ∧
      (canonicalGroup a b n i j).length = 2 * n) := by
  refine ⟨map_phase_ok a b m n p hm hmpos hna hbl hpb hnpos,
    length_contributions a b m n p, ?_, ?_⟩
  · intro i j
    rw [mem_keysOf_group_records]
    exact mem_keysOf_contributions a b m n p i j hnpos
  · intro i hi j hj
    have hne : canonicalGroup a b n i j ≠ [] := by
      intro hnil
      have hlen := length_canonicalGroup a b n i j
      rw [hnil] at hlen
      simp at hlen
      omega
    have hval : valuesOf (contributions a b m n p) (i, j) =
        canonicalGroup a b n i j := by
      rw [valuesOf_contributions, if_pos ⟨hi, hj⟩]
    refine ⟨?_, rfl, length_canonicalGroup a b n i j⟩
    rw [lookupAL_group_records, hval, if_neg hne]

/-- Witness for C2 at A = [[1,2],[3,4]], B = [[5,6],[7,8]]. -/
theorem claim_C2_witness :
    (([[1, 2], [3, 4]] : Mat).length = 2 ∧
      (∀ r ∈ ([[1, 2], [3, 4]] : Mat), r.length = 2) ∧
      ([[5, 6], [7, 8]] : Mat).length = 2 ∧
      (∀ r ∈ ([[5, 6], [7, 8]] : Mat), r.length = 2)) ∧
    (map_phase [[1, 2], [3, 4]] [[5, 6], [7, 8]] =
      .ok (group_records
        (contributions [[1, 2], [3, 4]] [[5, 6], [7, 8]] 2 2 2), (2, 2)) ∧
    (contributions [[1, 2], [3, 4]] [[5, 6], [7, 8]] 2 2 2).length =
      2 * 2 * 2 * 2 ∧
    (∀ i j : Nat, ((i, j) : OutputKey) ∈ keysOf (group_records
        (contributions [[1, 2], [3, 4]] [[5, 6], [7, 8]] 2 2 2))
        ↔ i < 2 ∧ j < 2) ∧
    (∀ i < 2, ∀ j < 2,
      lookupAL (group_records
          (contributions [[1, 2], [3, 4]] [[5, 6], [7, 8]] 2 2 2)) (i, j) =
        some (canonicalGroup [[1, 2], [3, 4]] [[5, 6], [7, 8]] 2 i j) ∧
      canonicalGroup [[1, 2], [3, 4]] [[5, 6], [7, 8]] 2 i j =
        ((List.range 2).map fun k =>
          ((Origin.A, k, cell [[1, 2], [3, 4]] i k) : TaggedValue)) ++
        ((List.range 2).map fun k =>
          ((Origin.B, k, cell [[5, 6], [7, 8]] k j) : TaggedValue)) ∧
      (canonicalGroup [[1, 2], [3, 4]] [[5, 6], [7, 8]] 2 i j).length =
        2 * 2)) :=
  ⟨⟨by decide, by decide, by decide, by decide⟩,
    claim_C2_mapper_emission [[1, 2], [3, 4]] [[5, 6], [7, 8]] 2 2 2
      (by decide) (by decide) (by decide) (by decide) (by decide) (by decide)⟩

/-- C3: for rectangular A (m by n) and rectangular B (n2 by p) with
n2 different from n, map_phase fails with the dimension mismatch error
naming both shapes (m, n and n2, p); the error return carries no record
sequence, so no record is emitted. -/
theorem claim_C3_dimension_mismatch (a b : Mat) (m n n2 p : Nat)
    (hm : a.length = m) (hna : ∀ r ∈ a, r.length = n)
    (hbl : b.length = n2) (hpb : ∀ r ∈ b, r.length = p)
    (hmpos : 1 ≤ m) (hn2pos : 1 ≤ n2) (hne : n2 ≠ n) :
    map_phase a b = .error (.dimensionMismatch m n n2 p) :=
  map_phase_mismatch a b m n n2 p hm hmpos hna hbl hn2pos hpb hne

/-- Witness for C3 at the spec scenario: a 2 by 3 matrix A against a
2 by 2 matrix B. -/
theorem claim_C3_witness :
    (([[1, 2, 3], [4, 5, 6]] : Mat).length = 2 ∧
      (∀ r ∈ ([[1, 2, 3], [4, 5, 6]] : Mat), r.length = 3) ∧
      ([[1, 2], [3, 4]] : Mat).length = 2 ∧
      (∀ r ∈ ([[1, 2], [3, 4]] : Mat), r.length = 2) ∧ (2 : Nat) ≠ 3) ∧
    map_phase [[1, 2, 3], [4, 5, 6]] [[1, 2], [3, 4]] =
      .error (.dimensionMismatch 2 3 2 2) :=
  ⟨⟨by decide, by decide, by decide, by decide, by decide⟩,
    claim_C3_dimension_mismatch [[1, 2, 3], [4, 5, 6]] [[1, 2], [3, 4]]
      2 3 2 2 (by decide) (by decide) (by decide) (by decide) (by decide)
      (by decide) (by decide)⟩

/-- C4: a row sequence that is empty or has rows of unequal length fails
Matrix construction with a ShapeError, and with such an input in either
position the whole engine run terminates with that ShapeError, before
map_phase or reduce_phase runs; ragged input never reaches the Map or
Reduce stages. Matrix construction is modelled from the spec (see
mkMatrix): the script under src has no Matrix container and no shape
check. -/
theorem claim_C4_shape_validation (rows : Mat)
    (hbad : rows = [] ∨
      ¬ ∀ r ∈ rows, r.length = (rows.headD []).length) :
    (∃ lens, mkMatrix rows = .error (.shapeError lens)) ∧
    (∀ other : Mat,
      ∃ lens, engine_run rows other = .error (.shapeError lens)) ∧
    (∀ other : Mat,
      ∃ lens, engine_run other rows = .error (.shapeError lens)) := by
  obtain ⟨lens, herr⟩ := mkMatrix_bad rows hbad
  refine ⟨⟨lens, herr⟩, ?_, ?_⟩
  · intro other
    refine ⟨lens, ?_⟩
    simp [engine_run, herr, Bind.bind, Except.bind]
  · intro other
    cases hother : mkMatrix other with
    | error e =>
      obtain ⟨lens2, he⟩ := mkMatrix_error_form other e hother
      refine ⟨lens2, ?_⟩
      simp [engine_run, hother, he, Bind.bind, Except.bind]
    | ok x =>
      refine ⟨lens, ?_⟩
      simp [engine_run, hother, herr, Bind.bind, Except.bind]

/-- Witness for C4 at the ragged input [[1], [2, 3]]. -/
theorem claim_C4_witness :
    (([[1], [2, 3]] : Mat) = [] ∨
      ¬ ∀ r ∈ ([[1], [2, 3]] : Mat), r.length =
        (([[1], [2, 3]] : Mat).headD []).length) ∧
    ((∃ lens, mkMatrix [[1], [2, 3]] = .error (.shapeError lens)) ∧
      (∀ other : Mat,
        ∃ lens, engine_run [[1], [2, 3]] other = .error (.shapeError lens)) ∧
      (∀ other : Mat,
        ∃ lens, engine_run other [[1], [2, 3]] =
          .error (.shapeError lens))) :=
  ⟨by decide, claim_C4_shape_validation [[1], [2, 3]] (by decide)⟩

/-- C5: every engine run is all or nothing: either it succeeds with a
complete result matrix of full size m by p, or it fails with a single
terminal error, which is a dimension mismatch or a shape error raised by
validation before any Map or Reduce work; an error return carries no
fragment of a result matrix. Input validation is modelled from the spec
(see mkMatrix). -/
theorem claim_C5_all_or_nothing (rowsA rowsB : Mat) :
    (∃ C, engine_run rowsA rowsB = .ok C ∧ C.length = rowsA.length ∧
      ∀ r ∈ C, r.length = (rowsB.headD []).length) ∨
    (∃ e, engine_run rowsA rowsB = .error e ∧
      ((∃ q r s t, e = EngineError.dimensionMismatch q r s t) ∨
        ∃ lens, e = EngineError.shapeError lens)) := by
  cases hA : mkMatrix rowsA with
  | error e =>
    right
    exact ⟨e, by simp [engine_run, hA, Bind.bind, Except.bind],
      Or.inr (mkMatrix_error_form _ _ hA)⟩
  | ok a =>
    obtain ⟨hax, r0, arest, haeq, harect⟩ := mkMatrix_ok_inv rowsA a hA
    have hA2 : mkMatrix rowsA = .ok rowsA := by rw [hA, hax]
    cases hB : mkMatrix rowsB with
    | error e =>
      right
      exact ⟨e, by simp [engine_run, hA2, hB, Bind.bind, Except.bind],
        Or.inr (mkMatrix_error_form _ _ hB)⟩
    | ok b =>
      obtain ⟨hbx, s0, brest, hbeq, hbrect⟩ := mkMatrix_ok_inv rowsB b hB
      have hB2 : mkMatrix rowsB = .ok rowsB := by rw [hB, hbx]
      have hmpos : 1 ≤ rowsA.length := by rw [haeq]; simp
      have hbpos : 1 ≤ rowsB.length := by rw [hbeq]; simp
      by_cases hdim : rowsB.length = r0.length
      · left
        have hnpos : 1 ≤ r0.length := by omega
        have hmp := map_phase_ok rowsA rowsB rowsA.length r0.length
          s0.length rfl hmpos harect hdim hbrect hnpos
        refine ⟨reduce_phase (group_records (contributions rowsA rowsB
            rowsA.length r0.length s0.length)) (rowsA.length, s0.length),
          ?_, reduce_phase_length _ _ _, ?_⟩
        · simp [engine_run, hA2, hB2, hmp, Bind.bind, Except.bind,
            Pure.pure, Except.pure]
        · intro r hr
          rw [reduce_phase_rows _ _ _ r hr, hbeq, List.headD_cons]
      · right
        have hmm := map_phase_mismatch rowsA rowsB rowsA.length r0.length
          rowsB.length s0.length rfl hmpos harect rfl hbpos hbrect hdim
        exact ⟨_, by simp [engine_run, hA2, hB2, hmm, Bind.bind, Except.bind],
          Or.inl ⟨rowsA.length, r0.length, rowsB.length, s0.length, rfl⟩⟩

/-- Witness for C5 at the concrete pair A = [[1,2],[3,4]],
B = [[5,6],[7,8]]. -/
theorem claim_C5_witness :
    (∃ C, engine_run [[1, 2], [3, 4]] [[5, 6], [7, 8]] = .ok C ∧
      C.length = ([[1, 2], [3, 4]] : Mat).length ∧
      ∀ r ∈ C, r.length = (([[5, 6], [7, 8]] : Mat).headD []).length) ∨
    (∃ e, engine_run [[1, 2], [3, 4]] [[5, 6], [7, 8]] = .error e ∧
      ((∃ q r s t, e = EngineError.dimensionMismatch q r s t) ∨
        ∃ lens, e = EngineError.shapeError lens)) :=
  claim_C5_all_or_nothing [[1, 2], [3, 4]] [[5, 6], [7, 8]]

/-- C6: shuffling the record stream emitted by the Mapper before grouping
never changes any cell of the final result matrix (over exact
arithmetic). -/
theorem claim_C6_order_invariance (a b : Mat) (m n p : Nat)
    (rs2 : List (OutputKey × TaggedValue))
    (hperm : rs2.Perm (contributions a b m n p)) :
    ∀ i j : Nat,
      cell (reduce_phase (group_records rs2) (m, p)) i j =
        cell (reduce_phase (group_records (contributions a b m n p))
          (m, p)) i j := by
  intro i j
  have hv : (valuesOf rs2 (i, j)).Perm
      (valuesOf (contributions a b m n p) (i, j)) := hperm.filterMap _
  by_cases hrange : i < m ∧ j < p
  · have hval : valuesOf (contributions a b m n p) (i, j) =
        canonicalGroup a b n i j := by
      rw [valuesOf_contributions, if_pos hrange]
    by_cases hnil : canonicalGroup a b n i j = []
    · have h1 : valuesOf (contributions a b m n p) (i, j) = [] := by
        rw [hval, hnil]
      have h2 : valuesOf rs2 (i, j) = [] := by
        rw [h1] at hv
        exact hv.eq_nil
      have hlook1 : lookupAL (group_records rs2) (i, j) = none := by
        rw [lookupAL_group_records, h2]
        simp
      have hlook2 : lookupAL (group_records (contributions a b m n p))
          (i, j) = none := by
        rw [lookupAL_group_records, h1]
        simp
      rw [cell_reduce_phase_absent _ m p i j hlook1,
        cell_reduce_phase_absent _ m p i j hlook2]
    · have h2ne : valuesOf rs2 (i, j) ≠ [] := by
        intro hnil2
        rw [hnil2] at hv
        apply hnil
        rw [← hval]
        exact (hv.symm).eq_nil
      rw [cell_reduce_phase _ m p i j (nodup_keysOf_group_records _)
          hrange.1 hrange.2,
        cell_reduce_phase _ m p i j (nodup_keysOf_group_records _)
          hrange.1 hrange.2,
        lookupAL_group_records, lookupAL_group_records, hval,
        if_neg hnil, if_neg h2ne]
      show reduce_cell (valuesOf rs2 (i, j)) =
        reduce_cell (canonicalGroup a b n i j)
      exact reduce_cell_perm _ _ (nodup_pairsOf_canonicalGroup a b n i j)
        (hval ▸ hv)
  · have hval : valuesOf (contributions a b m n p) (i, j) = [] := by
      rw [valuesOf_contributions, if_neg hrange]
    have h2 : valuesOf rs2 (i, j) = [] := by
      rw [hval] at hv
      exact hv.eq_nil
    have hlook1 : lookupAL (group_records rs2) (i, j) = none := by
      rw [lookupAL_group_records, h2]
      simp
    have hlook2 : lookupAL (group_records (contributions a b m n p))
        (i, j) = none := by
      rw [lookupAL_group_records, hval]
      simp
    rw [cell_reduce_phase_absent _ m p i j hlook1,
      cell_reduce_phase_absent _ m p i j hlook2]

/-- Witness for C6: the two records of the 1 by 1 scenario A = [[2]],
B = [[3]] in swapped order. -/
theorem claim_C6_witness :
    (([((0, 0), (Origin.B, 0, 3)), ((0, 0), (Origin.A, 0, 2))] :
        List (OutputKey × TaggedValue)).Perm
      (contributions [[2]] [[3]] 1 1 1)) ∧
    (∀ i j : Nat,
      cell (reduce_phase (group_records
          [((0, 0), (Origin.B, 0, 3)), ((0, 0), (Origin.A, 0, 2))])
        (1, 1)) i j =
      cell (reduce_phase (group_records (contributions [[2]] [[3]] 1 1 1))
        (1, 1)) i j) := by
  have hp : (([((0, 0), (Origin.B, 0, 3)), ((0, 0), (Origin.A, 0, 2))] :
      List (OutputKey × TaggedValue))).Perm
      (contributions [[2]] [[3]] 1 1 1) := by
    rw [show contributions [[2]] [[3]] 1 1 1 =
      [((0, 0), (Origin.A, 0, 2)), ((0, 0), (Origin.B, 0, 3))] from rfl]
    exact List.Perm.swap _ _ _
  exact ⟨hp, claim_C6_order_invariance [[2]] [[3]] 1 1 1 _ hp⟩

/-- C7: on any group whatsoever, the Reducer totalises to the sum of
a_values[k] times b_values[k] over exactly those shared indices k present
in both dicts; an index present on one side only contributes nothing and
is silently skipped, never an error. Concretely, a group whose index 5
appears only among the A records reduces to 2 times 3 = 6. -/
theorem claim_C7_one_sided_skipped :
    (∀ values : List TaggedValue,
      reduce_cell values =
        ∑ k ∈ ((keysOf (build_dict Origin.A values)).toFinset ∩
            (keysOf (build_dict Origin.B values)).toFinset),
          (lookupAL (build_dict Origin.A values) k).getD 0 *
            (lookupAL (build_dict Origin.B values) k).getD 0) ∧
    reduce_cell [(Origin.A, 5, 100), (Origin.A, 0, 2), (Origin.B, 0, 3)] =
      6 := by
  constructor
  · intro values
    rw [reduce_cell]
    exact dot_product_eq_sum _ _ (nodup_keysOf_build_dict Origin.A values)
  · norm_num [reduce_cell, build_dict, dinsert, dot_product, lookupAL,
      origin_B_ne_A, origin_A_ne_B]

/-- Witness for C7 at the one sided group [(A,5,100), (A,0,2), (B,0,3)]. -/
theorem claim_C7_witness :
    reduce_cell [(Origin.A, 5, 100), (Origin.A, 0, 2), (Origin.B, 0, 3)] =
      ∑ k ∈ ((keysOf (build_dict Origin.A
            [(Origin.A, 5, 100), (Origin.A, 0, 2),
              (Origin.B, 0, 3)])).toFinset ∩
          (keysOf (build_dict Origin.B
            [(Origin.A, 5, 100), (Origin.A, 0, 2),
              (Origin.B, 0, 3)])).toFinset),
        (lookupAL (build_dict Origin.A
          [(Origin.A, 5, 100), (Origin.A, 0, 2),
            (Origin.B, 0, 3)]) k).getD 0 *
          (lookupAL (build_dict Origin.B
            [(Origin.A, 5, 100), (Origin.A, 0, 2),
              (Origin.B, 0, 3)]) k).getD 0 :=
  claim_C7_one_sided_skipped.1
    [(Origin.A, 5, 100), (Origin.A, 0, 2), (Origin.B, 0, 3)]

/-- C9: when several records of a group share one (origin, sharedIndex)
pair, the dict comprehension keeps only the last such record for that
origin and index (later writes overwrite earlier ones, all other lookups
unchanged), so reduce uses only the last value, neither failing nor
summing them: the group [(A,0,1), (A,0,2), (B,0,10)] reduces to
2 times 10 = 20, not 30. -/
theorem claim_C9_last_write_wins :
    (∀ (vs : List TaggedValue) (o o2 : Origin) (k2 k : Nat) (v2 : Val),
      lookupAL (build_dict o (vs ++ [(o2, k2, v2)])) k =
        if o2 = o ∧ k2 = k then some v2
        else lookupAL (build_dict o vs) k) ∧
    reduce_cell [(Origin.A, 0, 1), (Origin.A, 0, 2), (Origin.B, 0, 10)] =
      20 := by
  constructor
  · intro vs o o2 k2 k v2
    rw [build_dict_append, List.foldl_cons, List.foldl_nil]
    by_cases h1 : o2 = o
    · by_cases h2 : k2 = k
      · subst h2
        simp [h1, lookupAL_dinsert_self]
      · simp [h1, h2,
          lookupAL_dinsert_ne (build_dict o vs) k2 k v2
            (fun hh => h2 hh.symm)]
    · simp [h1]
  · norm_num [reduce_cell, build_dict, dinsert, dot_product, lookupAL,
      origin_B_ne_A, origin_A_ne_B]

/-- Witness for C9: appending (A, 0, 5) to the empty group makes 0 map to
5 in the origin A dict. -/
theorem claim_C9_witness :
    lookupAL (build_dict Origin.A ([] ++ [(Origin.A, 0, 5)])) 0 =
      if Origin.A = Origin.A ∧ 0 = 0 then some 5
      else lookupAL (build_dict Origin.A []) 0 :=
  claim_C9_last_write_wins.1 [] Origin.A Origin.A 0 0 5

/-- C10: for dimensions m, p at least 1 and any mapped_values whose keys
are pairwise distinct and lie in the m by p grid, reduce_phase returns a
matrix of exactly m rows of p columns; a cell whose key is absent stays
0.0, and a cell whose key is present holds exactly the reduction of that
group (written once: keys are distinct, so no later write touches it). -/
theorem claim_C10_reduce_shape (items : MappedValues) (m p : Nat)
    (hm : 1 ≤ m) (hp : 1 ≤ p) (hnd : (keysOf items).Nodup)
    (hrange : ∀ kv ∈ items, kv.1.1 < m ∧ kv.1.2 < p) :
    (reduce_phase items (m, p)).length = m ∧
    (∀ r ∈ reduce_phase items (m, p), r.length = p) ∧
    (∀ i j : Nat, ((i, j) : OutputKey) ∉ keysOf items →
      cell (reduce_phase items (m, p)) i j = 0) ∧
    (∀ (i j : Nat) (vs : List TaggedValue),
      lookupAL items (i, j) = some vs →
      cell (reduce_phase items (m, p)) i j = reduce_cell vs) := by
  refine ⟨reduce_phase_length items m p, reduce_phase_rows items m p,
    ?_, ?_⟩
  · intro i j habs
    exact cell_reduce_phase_absent items m p i j
      ((lookupAL_eq_none_iff _ _).mpr habs)
  · intro i j vs hl
    have hmem := mem_of_lookupAL_eq_some hl
    have hb := hrange _ hmem
    rw [cell_reduce_phase items m p i j hnd hb.1 hb.2, hl]

/-- Witness for C10: a single entry keyed (0, 1) in a 2 by 2 grid. -/
theorem claim_C10_witness :
    ((1 : Nat) ≤ 2 ∧
      (keysOf ([((0, 1), [(Origin.A, 0, 3), (Origin.B, 0, 4)])] :
        MappedValues)).Nodup ∧
      (∀ kv ∈ ([((0, 1), [(Origin.A, 0, 3), (Origin.B, 0, 4)])] :
        MappedValues), kv.1.1 < 2 ∧ kv.1.2 < 2)) ∧
    ((reduce_phase [((0, 1), [(Origin.A, 0, 3), (Origin.B, 0, 4)])]
        (2, 2)).length = 2 ∧
      (∀ r ∈ reduce_phase [((0, 1), [(Origin.A, 0, 3), (Origin.B, 0, 4)])]
        (2, 2), r.length = 2) ∧
      (∀ i j : Nat, ((i, j) : OutputKey) ∉
          keysOf ([((0, 1), [(Origin.A, 0, 3), (Origin.B, 0, 4)])] :
            MappedValues) →
        cell (reduce_phase [((0, 1), [(Origin.A, 0, 3), (Origin.B, 0, 4)])]
          (2, 2)) i j = 0) ∧
      (∀ (i j : Nat) (vs : List TaggedValue),
        lookupAL ([((0, 1), [(Origin.A, 0, 3), (Origin.B, 0, 4)])] :
          MappedValues) (i, j) = some vs →
        cell (reduce_phase [((0, 1), [(Origin.A, 0, 3), (Origin.B, 0, 4)])]
          (2, 2)) i j = reduce_cell vs)) :=
  ⟨⟨by decide, by decide, by decide⟩,
    claim_C10_reduce_shape [((0, 1), [(Origin.A, 0, 3), (Origin.B, 0, 4)])]
      2 2 (by decide) (by decide) (by decide) (by decide)⟩

end MapReduceMatMul
